import Mathlib

/-!
Verification development for the university favicon crawler (`main.go`)

The program reads a list of `DiktiFinalResult` records, a producer goroutine
(`crawlWebs`) pushes one `Universitas` work item per record with a non-blank
website onto a bounded channel, ten worker goroutines (`worker`) pull items and
`scrape` each one (normalise the address, fetch, collect the favicon links,
append one JSON line to the sink file through `appendJsonToFile`), and `main`
waits on a `sync.WaitGroup`.

Modelling conventions

* A Go `string` is a Lean `String` (a sequence of Unicode code points; Go
  strings that are not valid UTF-8 are outside the model).
* File contents are byte lists.
* Library calls whose result is decided by the outside world (`http.Get`,
  the HTML parser, `os.OpenFile`, `(*os.File).Write`, `json.Marshal`) take
  their outcome as an explicit argument.
* Goroutines are interleaved by an explicit schedule: a list of actions, one
  atomic step of one goroutine each.
* The channel follows the Go runtime: a receive on an empty open channel blocks
  the worker; a non-blocking send is handed to a blocked receiver when there is
  one, is queued when the buffer has room, and is not taken otherwise.  This
  covers every capacity, the unbuffered channel of capacity 0 included.
-/

namespace Scraper

/-! ## Strings: `strings.TrimSpace` and `strings.HasPrefix` -/

/-- Go `unicode.IsSpace`: the code points with the Unicode White_Space
property. -/
def isSpace (c : Char) : Bool :=
  let n := c.toNat
  (0x09 ≤ n && n ≤ 0x0D) || n == 0x20 || n == 0x85 || n == 0xA0 || n == 0x1680 ||
  (0x2000 ≤ n && n ≤ 0x200A) || n == 0x2028 || n == 0x2029 || n == 0x202F ||
  n == 0x205F || n == 0x3000

/-- Go `strings.TrimSpace`: drop the leading and the trailing white space. -/
def trimSpace (s : String) : String :=
  ⟨((s.data.dropWhile isSpace).reverse.dropWhile isSpace).reverse⟩

/-- Go `strings.HasPrefix`. -/
def hasPrefix (s p : String) : Bool :=
  p.data.isPrefixOf s.data

/-! ## Data model -/

/-- Go `type Universitas struct`; a missing field is the Go zero value. -/
structure Universitas where
  Nama : String := ""
  Kode : String := ""
  Website : String := ""
  IconURL : List String := []
  deriving DecidableEq, Repr

/-- Go `type DiktiFinalResult struct`.  The string, integer and boolean fields
are kept; `Lintang`, `Bujur` (float64) and `AkreditasiList` are never read by
the pipeline and are left out. -/
structure DiktiFinalResult where
  Npsn : String := ""
  StatSp : String := ""
  NmLemb : String := ""
  TglBerdiri : String := ""
  SkPendirianSp : String := ""
  TglSkPendirianSp : String := ""
  Jln : String := ""
  NamaWil : String := ""
  KodePos : String := ""
  NoTel : String := ""
  NoFax : String := ""
  Email : String := ""
  Website : String := ""
  IDSp : String := ""
  LuasTanah : Int := 0
  Laboratorium : Int := 0
  RuangKelas : Int := 0
  Perpustakaan : Int := 0
  Internet : Bool := false
  Listrik : Bool := false
  NamaRektor : String := ""
  deriving DecidableEq, Repr

/-! ## `scrape`: address normalisation (lines 265-268) -/

/-- The address `scrape` passes to `http.Get`:
`ok := strings.HasPrefix(univ.Website, "http")` and, when not ok,
`univ.Website = fmt.Sprintf("https://%s", strings.TrimSpace(univ.Website))`. -/
def normalize (website : String) : String :=
  if hasPrefix website "http" then website
  else "https://" ++ trimSpace website

/-- The recognised URL scheme prefixes of the specification. -/
def hasSchemePrefix (a : String) : Bool :=
  hasPrefix a "http://" || hasPrefix a "https://"

/-! ## `scrape`: favicon extraction (lines 282-293) -/

/-- One `link` element found by `doc.Find("head").Find("link")`, with the two
attributes the callback reads; `none` is an absent attribute. -/
structure HeadLink where
  rel : Option String := none
  href : Option String := none
  deriving DecidableEq, Repr

/-- A parsed document, as far as `scrape` looks at it: the `link` elements
inside `head`, in document order. -/
abbrev Document := List HeadLink

/-- The body of the `Each` callback, acting on `univ.IconURL`. -/
def eachLink (iconURL : List String) (s : HeadLink) : List String :=
  match s.rel with
  | none => iconURL
  | some rel =>
    if trimSpace rel = "icon" then
      match s.href with
      | some href => iconURL ++ [href]
      | none => iconURL
    else iconURL

/-- The `Each` loop of `scrape`: the callback runs on every element in document
order. -/
def collectIcons (doc : Document) (univ : Universitas) : Universitas :=
  { univ with IconURL := doc.foldl eachLink univ.IconURL }

/-! ## `appendJsonToFile` (lines 145-168) -/

/-- File contents. -/
abbrev Bytes := List UInt8

/-- The line delimiter written by `f.WriteString("\n")`. -/
def newline : Bytes := [10]

/-- Which statement of `appendJsonToFile` returned the error. -/
inductive AppendError where
  | marshal
  | openFile
  | writeRecord
  | writeDelimiter
  deriving DecidableEq, Repr

/-- What the operating system answers to the three calls of one
`appendJsonToFile`: whether `os.OpenFile` succeeds, and how many bytes the
device takes from `f.Write(b)` and from `f.WriteString("\n")`. -/
structure FileIO where
  openOk : Bool := true
  recordRoom : Nat
  delimRoom : Nat

/-- Go `(*os.File).Write` on a file opened with `O_APPEND`: the bytes the
device takes are added at the end, and the call fails when it took fewer than
`len(b)`.  Returns the new content and whether the call succeeded. -/
def fileWrite (file b : Bytes) (room : Nat) : Bytes × Bool :=
  (file ++ b.take room, decide (b.length ≤ room))

/-- Go `appendJsonToFile(jsn, path)`, on the content of the file at `path`
(an absent file has empty content and is created by `O_CREATE`).  The result of
`json.Marshal(jsn)` is given by `marshal`.  Returns the error, if any, and the
content afterwards. -/
def appendJsonToFile {α : Type} (marshal : α → Option Bytes) (jsn : α) (io : FileIO)
    (file : Bytes) : Option AppendError × Bytes :=
  match marshal jsn with
  | none => (some .marshal, file)
  | some b =>
    if !io.openOk then (some .openFile, file)
    else
      let w1 := fileWrite file b io.recordRoom
      if !w1.2 then (some .writeRecord, w1.1)
      else
        let w2 := fileWrite w1.1 newline io.delimRoom
        if !w2.2 then (some .writeDelimiter, w2.1)
        else (none, w2.1)

/-! ## `scrape` (lines 261-296) -/

/-- What `http.Get` followed by `goquery.NewDocumentFromReader` yields:
`http.Get` returns an error, or the parser returns an error, or there is a
document. -/
inductive FetchResult where
  | transportError
  | parseError
  | document (doc : Document)
  deriving DecidableEq, Repr

/-- How a call of `scrape` ends. -/
inductive ScrapeResult where
  /-- The call of `http.Get` failed: `slog.Error`, `return`. -/
  | abandoned
  /-- The parser failed: `log.Fatal`, the process exits. -/
  | fatal
  /-- The call reached `appendJsonToFile(univ, fileResult)`, whose error is
  dropped. -/
  | appended (univ : Universitas) (err : Option AppendError)
  deriving DecidableEq, Repr

/-- Go `scrape(univ, wID)` on the sink file `fileResult`. -/
def scrape (marshal : Universitas → Option Bytes) (httpGet : String → FetchResult)
    (io : FileIO) (univ : Universitas) (_wID : Nat) (sink : Bytes) : ScrapeResult × Bytes :=
  let univ := { univ with Website := normalize univ.Website }
  match httpGet univ.Website with
  | .transportError => (.abandoned, sink)
  | .parseError => (.fatal, sink)
  | .document doc =>
    let univ := collectIcons doc univ
    let r := appendJsonToFile marshal univ io sink
    (.appended univ r.1, r.2)

/-! ## The pipeline: `crawlWebs`, `worker`, `main` as interleaved goroutines -/

/-- The constants of a run: `make(chan Universitas, cap)`, the number of
workers `main` starts, the decoded input, and `json.Marshal`. -/
structure Config where
  cap : Nat
  nWorkers : Nat
  items : List DiktiFinalResult
  marshal : Universitas → Option Bytes

/-- The work item `crawlWebs` builds from a record (lines 300-305). -/
def toUniversitas (item : DiktiFinalResult) : Universitas :=
  { Website := item.Website, Nama := item.NmLemb, Kode := item.Npsn }

/-- What the producer does to the channel and the log, one entry per event. -/
inductive Event where
  /-- The record is skipped: `slog.Warn("URL is empty")`, `continue`. -/
  | skipped (univ : Universitas)
  /-- The branch `case webs <- univ` was taken. -/
  | sent (univ : Universitas)
  /-- The `default` branch: the channel is full, `univ` goes to `buffer`. -/
  | full (univ : Universitas)
  /-- The branch `case webs <- buffer[0]` was taken. -/
  | resent (univ : Universitas)
  /-- The inner `default` branch: `time.Sleep(time.Second)`. -/
  | stillFull
  deriving DecidableEq, Repr

/-- Where `crawlWebs` stands. -/
inductive ProducerPc where
  /-- Not started: `main` has not run `go crawlWebs(...)` yet. -/
  | notStarted
  /-- At the head of `for _, item := range items`, `rest` still to come. -/
  | loop (rest : List DiktiFinalResult)
  /-- At the head of `for len(buffer) > 0`. -/
  | retry (buffer : List Universitas) (rest : List DiktiFinalResult)
  | returned
  deriving DecidableEq, Repr

/-- Where a worker goroutine stands. -/
inductive WorkerPc where
  /-- At `for j := range jobs`, about to receive. -/
  | recv
  /-- Blocked in the receive of `for j := range jobs`: the channel was empty and
  open when the worker came to receive. -/
  | parked
  /-- In `scrape`, before `http.Get`. -/
  | scraping (univ : Universitas)
  /-- In `appendJsonToFile`, before `os.OpenFile`. -/
  | opening (b : Bytes)
  /-- Before `f.Write(b)`. -/
  | writingRecord (b : Bytes)
  /-- Before `f.WriteString("\n")`. -/
  | writingDelim
  /-- The `range` loop ended and the deferred `wg.Done()` ran. -/
  | done
  deriving DecidableEq, Repr

/-- Where `main` stands, from line 237 on. -/
inductive MainPc where
  /-- Before `go crawlWebs(univs, diktiResults)`. -/
  | start
  /-- At the test `w <= 10` of the loop that starts the workers. -/
  | spawning (w : Nat)
  /-- In `wg.Wait()`. -/
  | waiting
  | returned
  deriving DecidableEq, Repr

/-- The shared state and the goroutines. -/
structure Sys where
  /-- Content of the buffer of the channel `univs`, oldest first. -/
  queue : List Universitas := []
  /-- Whether `close(univs)` has run. -/
  closed : Bool := false
  /-- Counter of the `sync.WaitGroup`. -/
  wg : Nat := 0
  main : MainPc := .start
  producer : ProducerPc := .notStarted
  /-- The started workers; worker `wID` is at index `wID - 1`. -/
  workers : List WorkerPc := []
  /-- Content of the file `fileResult`. -/
  sink : Bytes := []
  /-- The process has ended (`log.Fatal`, or `main` returned). -/
  exited : Bool := false
  /-- The producer's events so far. -/
  trace : List Event := []
  deriving DecidableEq, Repr

/-- The first worker blocked in its receive, if any. -/
def firstParked : List WorkerPc → Option Nat
  | [] => none
  | pc :: rest => if pc = .parked then some 0 else (firstParked rest).map (· + 1)

/-- The blocked receiver a send is handed to.  Go does not say which of several
blocked receivers is served, so the schedule names one (`serve`); when that
worker is not blocked the first blocked worker is served. -/
def receiver (workers : List WorkerPc) (serve : Nat) : Option Nat :=
  if workers[serve]? = some .parked then some serve else firstParked workers

/-- The non-blocking send `select { case webs <- u: ...; default: ... }` on a
channel of capacity `cap` (Go `chansend` with `block = false`): when a receiver
is blocked on the channel the item is handed to it and it goes on with that
item; otherwise the item is queued when the buffer has room; otherwise the send
is not taken.  Returns the new state when the send is taken. -/
def trySend (cap : Nat) (s : Sys) (serve : Nat) (u : Universitas) : Option Sys :=
  match receiver s.workers serve with
  | some k => some { s with workers := s.workers.set k (.scraping u) }
  | none => if s.queue.length < cap then some { s with queue := s.queue ++ [u] } else none

/-- One step of `crawlWebs` (lines 297-335); `serve` names the blocked receiver
a send is handed to. -/
def producerStep (cfg : Config) (serve : Nat) (s : Sys) : Sys :=
  match s.producer with
  | .notStarted => s
  | .returned => s
  | .loop [] => { s with producer := .returned }
  | .loop (item :: rest) =>
    let univ := toUniversitas item
    if trimSpace item.Website = "" then
      { s with producer := .loop rest, trace := s.trace ++ [.skipped univ] }
    else
      match trySend cfg.cap s serve univ with
      | some t => { t with producer := .loop rest, trace := s.trace ++ [.sent univ] }
      | none => { s with producer := .retry [univ] rest, trace := s.trace ++ [.full univ] }
  | .retry [] rest => { s with producer := .loop rest }
  | .retry (u :: buffer) rest =>
    match trySend cfg.cap s serve u with
    | some t => { t with producer := .retry buffer rest, trace := s.trace ++ [.resent u] }
    | none => { s with trace := s.trace ++ [.stillFull] }

/-- What the outside world answers to the call a worker is about to make. -/
structure WorkerEnv where
  httpGet : String → FetchResult := fun _ => .transportError
  openOk : Bool := true
  room : Nat := 0

/-- One step of a worker standing at `pc` (lines 255-296 and 145-168): the new
place and the new shared state. -/
def workerStep (cfg : Config) (env : WorkerEnv) (pc : WorkerPc) (s : Sys) : WorkerPc × Sys :=
  match pc with
  | .recv =>
    match s.queue with
    | j :: q => (.scraping j, { s with queue := q })
    | [] => if s.closed then (.done, { s with wg := s.wg - 1 }) else (.parked, s)
  | .parked => if s.closed then (.done, { s with wg := s.wg - 1 }) else (.parked, s)
  | .scraping univ =>
    let univ := { univ with Website := normalize univ.Website }
    match env.httpGet univ.Website with
    | .transportError => (.recv, s)
    | .parseError => (.scraping univ, { s with exited := true })
    | .document doc =>
      match cfg.marshal (collectIcons doc univ) with
      | none => (.recv, s)
      | some b => (.opening b, s)
  | .opening b => if env.openOk then (.writingRecord b, s) else (.recv, s)
  | .writingRecord b =>
    let w := fileWrite s.sink b env.room
    (if w.2 then .writingDelim else .recv, { s with sink := w.1 })
  | .writingDelim => (.recv, { s with sink := (fileWrite s.sink newline env.room).1 })
  | .done => (.done, s)

/-- One step of `main` (lines 237-253). -/
def mainStep (cfg : Config) (s : Sys) : Sys :=
  match s.main with
  | .start => { s with producer := .loop cfg.items, main := .spawning 1 }
  | .spawning w =>
    if w ≤ cfg.nWorkers then
      { s with wg := s.wg + 1, workers := s.workers ++ [.recv], main := .spawning (w + 1) }
    else { s with main := .waiting }
  | .waiting => if s.wg = 0 then { s with main := .returned, exited := true } else s
  | .returned => s

/-- Which goroutine moves; for the producer which blocked receiver a send is
handed to, and for a worker what the outside world answers. -/
inductive Action where
  | main
  | producer (serve : Nat)
  | worker (i : Nat) (env : WorkerEnv)

/-- One step of the process. -/
def step (cfg : Config) (a : Action) (s : Sys) : Sys :=
  if s.exited then s
  else
    match a with
    | .main => mainStep cfg s
    | .producer serve => producerStep cfg serve s
    | .worker i env =>
      match s.workers[i]? with
      | none => s
      | some pc =>
        let r := workerStep cfg env pc s
        { r.2 with workers := r.2.workers.set i r.1 }

/-- The state after a schedule. -/
def run (cfg : Config) (sched : List Action) (s : Sys) : Sys :=
  sched.foldl (fun s a => step cfg a s) s

/-- The state at line 237, with the sink file holding `sink`. -/
def init (sink : Bytes) : Sys := { sink := sink }

/-- The constants of `main`: a channel of capacity 100 and 10 workers. -/
def mainConfig (items : List DiktiFinalResult) (marshal : Universitas → Option Bytes) : Config :=
  { cap := 100, nWorkers := 10, items := items, marshal := marshal }

/-! ## Specification-side definitions -/

/-- The Item Source of the specification: one work item per record whose
address is non-empty after trimming, in source order. -/
def itemSource (items : List DiktiFinalResult) : List Universitas :=
  (items.filter fun r => trimSpace r.Website ≠ "").map fun r =>
    { Website := r.Website, Nama := r.NmLemb, Kode := r.Npsn, IconURL := [] }

/-- The items the producer has offered to the channel: every first
non-blocking send, taken or not. -/
def offered (t : List Event) : List Universitas :=
  t.filterMap fun
    | .sent u => some u
    | .full u => some u
    | _ => none

/-- The items the producer has placed on the channel. -/
def enqueued (t : List Event) : List Universitas :=
  t.filterMap fun
    | .sent u => some u
    | .resent u => some u
    | _ => none

/-- The records `crawlWebs` has not read yet. -/
def pendingRecords (cfg : Config) : ProducerPc → List DiktiFinalResult
  | .notStarted => cfg.items
  | .loop rest => rest
  | .retry _ rest => rest
  | .returned => []

/-- The overflow buffer of `crawlWebs`; it exists only inside the retry loop. -/
def overflowBuffer : ProducerPc → List Universitas
  | .retry buffer _ => buffer
  | _ => []

/-- Whether an action is a step of a goroutine other than worker `i`. -/
def notWorker (i : Nat) : Action → Bool
  | .worker j _ => j != i
  | _ => true

/-- The icon list of the specification: the `href` of every element that has a
`rel` equal to "icon" after trimming and has an `href`. -/
def iconHrefs (doc : Document) : List String :=
  doc.filterMap fun l =>
    match l.rel, l.href with
    | some rel, some href => if trimSpace rel = "icon" then some href else none
    | _, _ => none

/-! ## Uninterrupted runs -/

/-- A schedule on which worker 0 waits for every item and abandons it at once:
`main` starts the producer and one worker, then for every record the worker
moves (it blocks in its receive), the producer moves (it skips the record or
hands the item to the worker), and the worker moves again (it abandons the
item); the producer moves a last time. -/
def eagerSchedule (items : List DiktiFinalResult) : List Action :=
  [.main, .main] ++
    (items.flatMap fun _ =>
      [.worker 0 { httpGet := fun _ => .transportError }, .producer 0,
        .worker 0 { httpGet := fun _ => .transportError }]) ++
    [.producer 0]

/-- The steps of one worker from the moment it holds an item until it is back
at the receive (or the process has ended), with the outside world's answers in
`envs`, no other goroutine moving in between. -/
def scrapeSteps (cfg : Config) : List WorkerEnv → WorkerPc → Sys → WorkerPc × Sys
  | [], pc, s => (pc, s)
  | env :: envs, pc, s =>
    match pc with
    | .recv => (pc, s)
    | .parked => (pc, s)
    | .done => (pc, s)
    | _ =>
      if s.exited then (pc, s)
      else scrapeSteps cfg envs (workerStep cfg env pc s).1 (workerStep cfg env pc s).2

/-! ## Invariants -/

/-- The invariant of the producer: what was offered, and what was placed on the
channel followed by the overflow buffer, is the item source of the records read
so far; the buffer holds at most one item. -/
def ProducerInv (cfg : Config) (s : Sys) : Prop :=
  (s.main = .start → s.producer = .notStarted) ∧
  offered s.trace ++ itemSource (pendingRecords cfg s.producer) = itemSource cfg.items ∧
  enqueued s.trace ++ overflowBuffer s.producer ++ itemSource (pendingRecords cfg s.producer)
    = itemSource cfg.items ∧
  (overflowBuffer s.producer).length ≤ 1

/-- The invariant of the channel: its content is the tail end of the placed
items, it never holds more than its capacity, and it is empty while a receiver
is blocked on it. -/
def QueueInv (cfg : Config) (s : Sys) : Prop :=
  s.queue <:+ enqueued s.trace ∧ s.queue.length ≤ cfg.cap ∧
  (WorkerPc.parked ∈ s.workers → s.queue = [])

/-- The invariant of the lifecycle: the channel is open, no started worker has
left its loop, the wait group counts the started workers, and `main` has not
returned from `wg.Wait()`. -/
def LifecycleInv (cfg : Config) (s : Sys) : Prop :=
  s.closed = false ∧ (∀ pc ∈ s.workers, pc ≠ .done) ∧ s.wg = s.workers.length ∧
  match s.main with
  | .start => s.workers.length = 0
  | .spawning w => w = s.workers.length + 1
  | .waiting => cfg.nWorkers ≤ s.workers.length
  | .returned => False

/-! ## Concrete inputs used by the examples -/

/-- Stand-in for `json.Marshal` in the examples: the `Kode` of the item between
braces, one byte per character. -/
def demoMarshal (u : Universitas) : Option Bytes :=
  some ([123] ++ u.Kode.data.map (fun c => UInt8.ofNat c.toNat) ++ [125])

/-- The three records of the scenario of the specification: addresses
`example.org`, empty, `http://foo.test`. -/
def demoItems : List DiktiFinalResult :=
  [{ Website := "example.org", NmLemb := "A", Npsn := "1" },
   { Website := "", NmLemb := "B", Npsn := "2" },
   { Website := "http://foo.test", NmLemb := "C", Npsn := "3" }]

/-- A small pipeline: capacity 1, two workers, the three demo records. -/
def demoConfig : Config :=
  { cap := 1, nWorkers := 2, items := demoItems, marshal := demoMarshal }

/-- An outside world in which every fetch yields a document with one icon link
and every file operation succeeds. -/
def demoEnv : WorkerEnv :=
  { httpGet := fun _ => .document [{ rel := some "icon", href := some "/favicon.ico" }],
    openOk := true, room := 1000 }

/-- An outside world in which every fetch fails. -/
def offlineEnv : WorkerEnv := { httpGet := fun _ => .transportError }

/-- The work item of the first demo record. -/
def itemA : Universitas := { Nama := "A", Kode := "1", Website := "example.org" }

/-- The work item of the third demo record. -/
def itemC : Universitas := { Nama := "C", Kode := "3", Website := "http://foo.test" }

/-- A schedule on which the two workers' calls of `appendJsonToFile` overlap:
both records are written before either delimiter. -/
def overlapSchedule : List Action :=
  [.main, .main, .main, .producer 0, .worker 0 demoEnv, .producer 0, .producer 0,
   .worker 1 demoEnv,
   .worker 0 demoEnv, .worker 1 demoEnv, .worker 0 demoEnv, .worker 1 demoEnv,
   .worker 0 demoEnv, .worker 1 demoEnv, .worker 0 demoEnv, .worker 1 demoEnv]

/-- A schedule on which the channel of capacity 1 is full when the third record
is offered, a worker then takes the first item, and the producer returns. -/
def drainSchedule : List Action :=
  [.main, .producer 0, .producer 0, .producer 0, .producer 0, .main, .worker 0 offlineEnv,
   .producer 0, .producer 0, .producer 0]

/-- A schedule that leaves the producer in its retry loop with a worker having
just emptied the channel. -/
def retrySchedule : List Action :=
  [.main, .producer 0, .producer 0, .producer 0, .producer 0, .main, .worker 0 offlineEnv]

/-- The demo records on an unbuffered channel: capacity 0, two workers. -/
def unbufferedConfig : Config :=
  { cap := 0, nWorkers := 2, items := demoItems, marshal := demoMarshal }

/-- A schedule for the unbuffered channel: worker 0 blocks in its receive and is
handed the first item, the third item finds no receiver and goes to the overflow
buffer, and worker 0 abandons its item and blocks again. -/
def handoffSchedule : List Action :=
  [.main, .main, .worker 0 offlineEnv, .producer 0, .producer 0, .producer 0,
   .worker 0 offlineEnv, .worker 0 offlineEnv]

/-- A schedule that leaves worker 0 holding the first item and the third item
on the channel. -/
def holdSchedule : List Action :=
  [.main, .main, .producer 0, .worker 0 offlineEnv, .producer 0, .producer 0]

/-- A schedule that leaves worker 0 about to write its record and worker 1 about
to open the sink. -/
def writerSchedule : List Action :=
  [.main, .main, .main, .producer 0, .worker 0 demoEnv, .producer 0, .producer 0,
   .worker 1 demoEnv, .worker 0 demoEnv, .worker 1 demoEnv, .worker 0 demoEnv]

/-! ## Address normalisation -/

theorem hasPrefix_iff (s p : String) : hasPrefix s p = true ↔ p.data <+: s.data := by
  simp [hasPrefix]

theorem hasPrefix_https_append (t : String) : hasPrefix ("https://" ++ t) "http" = true := by
  rw [hasPrefix_iff, String.data_append]
  exact ⟨"s://".data ++ t.data, by simp⟩

theorem hasPrefix_http_of_scheme (a : String) (h : hasSchemePrefix a = true) :
    hasPrefix a "http" = true := by
  simp only [hasSchemePrefix, Bool.or_eq_true, hasPrefix_iff] at h
  rw [hasPrefix_iff]
  rcases h with h | h
  · exact List.IsPrefix.trans (by decide) h
  · exact List.IsPrefix.trans (by decide) h

theorem normalize_normalize (a : String) : normalize (normalize a) = normalize a := by
  unfold normalize
  by_cases h : hasPrefix a "http" = true
  · simp [h]
  · simp [h, hasPrefix_https_append]

/-- C3: the normalisation `scrape` applies before fetching is idempotent, and it
leaves an address that already begins with `http://` or `https://` as it is. -/
theorem normalize_idempotent (a : String) :
    normalize (normalize a) = normalize a ∧ (hasSchemePrefix a = true → normalize a = a) := by
  refine ⟨normalize_normalize a, fun h => ?_⟩
  simp [normalize, hasPrefix_http_of_scheme a h]

/-- Witness for C3 at the address `http://foo.test`. -/
theorem normalize_idempotent_witness :
    normalize (normalize "http://foo.test") = normalize "http://foo.test" ∧
      normalize "http://foo.test" = "http://foo.test" :=
  ⟨(normalize_idempotent "http://foo.test").1,
    (normalize_idempotent "http://foo.test").2 (by decide)⟩

/-- C4, refuted as stated: `" example.org"` and `"httpbin.org"` do not begin with
`http://` or `https://`, yet the first is fetched as `https://example.org`, which
is not `https://` followed by the address, and the second is fetched unchanged,
without any scheme. -/
theorem normalize_not_always_prepended :
    (hasSchemePrefix " example.org" = false ∧
      normalize " example.org" = "https://example.org" ∧
      normalize " example.org" ≠ "https://" ++ " example.org") ∧
    (hasSchemePrefix "httpbin.org" = false ∧
      normalize "httpbin.org" = "httpbin.org" ∧
      hasSchemePrefix (normalize "httpbin.org") = false) := by
  decide

/-- C4, amended: for an address that does not begin with the letters `http`,
`scrape` fetches `https://` followed by the trimmed address; the fetched address
begins with `https://`, what follows the scheme is the trimmed address, and
normalising again prepends nothing more. -/
theorem normalize_prepends_once (a : String) (h : hasPrefix a "http" = false) :
    normalize a = "https://" ++ trimSpace a ∧
      hasPrefix (normalize a) "https://" = true ∧
      hasSchemePrefix (normalize a) = true ∧
      (normalize a).data.drop 8 = (trimSpace a).data ∧
      normalize (normalize a) = normalize a := by
  have e : normalize a = "https://" ++ trimSpace a := by simp [normalize, h]
  have p : hasPrefix (normalize a) "https://" = true := by
    rw [e, hasPrefix_iff, String.data_append]
    exact ⟨(trimSpace a).data, rfl⟩
  refine ⟨e, p, ?_, ?_, normalize_normalize a⟩
  · simp [hasSchemePrefix, p]
  · rw [e, String.data_append]
    rfl

/-- Witness for the amended C4 at the address `" example.org "`. -/
theorem normalize_prepends_once_witness :
    normalize " example.org " = "https://example.org" ∧
      normalize (normalize " example.org ") = normalize " example.org " :=
  ⟨by decide, (normalize_prepends_once " example.org " (by decide)).2.2.2.2⟩

/-! ## Favicon extraction -/

theorem eachLink_eq (iconURL : List String) (l : HeadLink) :
    eachLink iconURL l = iconURL ++ iconHrefs [l] := by
  rcases l with ⟨rel, href⟩
  cases rel with
  | none => simp [eachLink, iconHrefs]
  | some rel =>
    by_cases h : trimSpace rel = "icon" <;> cases href <;> simp [eachLink, iconHrefs, h]

theorem iconHrefs_cons (l : HeadLink) (doc : Document) :
    iconHrefs (l :: doc) = iconHrefs [l] ++ iconHrefs doc := by
  unfold iconHrefs
  rw [← List.filterMap_append]
  rfl

theorem foldl_eachLink (doc : Document) (iconURL : List String) :
    doc.foldl eachLink iconURL = iconURL ++ iconHrefs doc := by
  induction doc generalizing iconURL with
  | nil => simp [iconHrefs]
  | cons l doc ih =>
    rw [List.foldl_cons, ih, eachLink_eq, iconHrefs_cons l doc, List.append_assoc]

/-- C5: the icon list `scrape` adds to the item is the list of the `href`s of
the head links whose `rel` exists and is "icon" after trimming and which have an
`href`, in document order; when the fetch yields a document, the record handed
to `appendJsonToFile` carries exactly these after the icons the item had. -/
theorem scrape_collects_icon_hrefs (marshal : Universitas → Option Bytes)
    (httpGet : String → FetchResult) (io : FileIO) (univ : Universitas) (wID : Nat)
    (sink : Bytes) (doc : Document)
    (hdoc : httpGet (normalize univ.Website) = .document doc) :
    (collectIcons doc univ).IconURL = univ.IconURL ++ iconHrefs doc ∧
      ∃ err, (scrape marshal httpGet io univ wID sink).1 =
        .appended { Nama := univ.Nama, Kode := univ.Kode, Website := normalize univ.Website,
                    IconURL := univ.IconURL ++ iconHrefs doc } err := by
  constructor
  · simp [collectIcons, foldl_eachLink]
  · simp [scrape, hdoc, collectIcons, foldl_eachLink]

/-- Witness for C5: a head with an icon link, a stylesheet link, a link without
`rel`, an icon link without `href` and an icon link with a padded `rel`. -/
theorem scrape_collects_icon_hrefs_witness :
    (collectIcons
        [{ rel := some "icon", href := some "/a.ico" },
         { rel := some "stylesheet", href := some "/s.css" },
         { rel := none, href := some "/n.ico" },
         { rel := some "icon", href := none },
         { rel := some " icon\n", href := some "/b.png" }]
        { Website := "example.org" }).IconURL = ["/a.ico", "/b.png"] :=
  (scrape_collects_icon_hrefs (fun _ => none)
    (fun _ => .document
      [{ rel := some "icon", href := some "/a.ico" },
       { rel := some "stylesheet", href := some "/s.css" },
       { rel := none, href := some "/n.ico" },
       { rel := some "icon", href := none },
       { rel := some " icon\n", href := some "/b.png" }])
    { recordRoom := 0, delimRoom := 0 } { Website := "example.org" } 1 [] _ rfl).1

/-! ## The result sink: one call of `appendJsonToFile` -/

theorem fileWrite_extends (file b : Bytes) (room : Nat) : file <+: (fileWrite file b room).1 :=
  ⟨b.take room, rfl⟩

theorem fileWrite_ok (file b : Bytes) (room : Nat) (h : (fileWrite file b room).2 = true) :
    (fileWrite file b room).1 = file ++ b := by
  simp only [fileWrite, decide_eq_true_eq] at h
  simp [fileWrite, List.take_of_length_le h]

theorem fileWrite_short (file b : Bytes) (room : Nat) (h : (fileWrite file b room).2 = false) :
    room < b.length ∧ (fileWrite file b room).1 = file ++ b.take room := by
  simp only [fileWrite, decide_eq_false_iff_not, not_le] at h
  exact ⟨h, rfl⟩

/-- C7, refuted as stated: with prior content `[1]`, a record encoded as `{}`,
a record write that succeeds and a delimiter write that fails, the call reports
an error and leaves the record in the file without its delimiter: the content
is neither the prior content nor the prior content followed by the full line. -/
theorem appendJsonToFile_not_atomic :
    appendJsonToFile (fun _ : Universitas => some [123, 125]) {}
        { openOk := true, recordRoom := 2, delimRoom := 0 } [1]
      = (some .writeDelimiter, [1, 123, 125]) ∧
    (appendJsonToFile (fun _ : Universitas => some [123, 125]) {}
        { openOk := true, recordRoom := 2, delimRoom := 0 } [1]).2 ≠ [1] ∧
    (appendJsonToFile (fun _ : Universitas => some [123, 125]) {}
        { openOk := true, recordRoom := 2, delimRoom := 0 } [1]).2 ≠ [1] ++ [123, 125] ++ newline := by
  decide

/-- C7, amended: one call of `appendJsonToFile` is append-only but not atomic.
The prior content is always a prefix of the content afterwards.  When
marshalling fails the call reports an error and the content is the prior
content.  When marshalling gives `b`, either the call reports success and the
content is the prior content, then `b`, then one newline, or it reports an error
and the content is the prior content followed by a proper prefix of `b` and the
newline (nothing when the file could not be opened, all of `b` without the
newline when only the delimiter write failed). -/
theorem appendJsonToFile_append_only {α : Type} (marshal : α → Option Bytes) (jsn : α)
    (io : FileIO) (file : Bytes) :
    file <+: (appendJsonToFile marshal jsn io file).2 ∧
    (marshal jsn = none → appendJsonToFile marshal jsn io file = (some .marshal, file)) ∧
    (∀ b, marshal jsn = some b →
      appendJsonToFile marshal jsn io file = (none, file ++ b ++ newline) ∨
      ∃ e k, k < (b ++ newline).length ∧
        appendJsonToFile marshal jsn io file = (some e, file ++ (b ++ newline).take k) ∧
        (io.openOk = false → k = 0) ∧ (e = .writeDelimiter → k = b.length)) := by
  refine ⟨?_, ?_, ?_⟩
  · unfold appendJsonToFile
    cases marshal jsn with
    | none => exact List.prefix_refl _
    | some b =>
      simp only
      split
      · exact List.prefix_refl _
      · split
        · exact fileWrite_extends _ _ _
        · split
          · exact (fileWrite_extends _ _ _).trans (fileWrite_extends _ _ _)
          · exact (fileWrite_extends _ _ _).trans (fileWrite_extends _ _ _)
  · intro h
    simp [appendJsonToFile, h]
  · intro b hb
    unfold appendJsonToFile
    simp only [hb]
    cases ho : io.openOk with
    | false =>
      right
      exact ⟨.openFile, 0, by simp [newline], by simp, fun _ => rfl, fun h => by cases h⟩
    | true =>
      simp only [Bool.not_true, Bool.false_eq_true, if_false]
      cases h1 : (fileWrite file b io.recordRoom).2 with
      | false =>
        right
        obtain ⟨hlt, he⟩ := fileWrite_short _ _ _ h1
        refine ⟨.writeRecord, io.recordRoom, ?_, ?_, ?_, ?_⟩
        · simp only [List.length_append]
          omega
        · simp [he, List.take_append_of_le_length (Nat.le_of_lt hlt)]
        · intro h
          cases h
        · intro h
          cases h
      | true =>
        have e1 := fileWrite_ok _ _ _ h1
        simp only [Bool.not_true, Bool.false_eq_true, if_false]
        cases h2 : (fileWrite (fileWrite file b io.recordRoom).1 newline io.delimRoom).2 with
        | false =>
          right
          obtain ⟨hlt, he⟩ := fileWrite_short _ _ _ h2
          have hz : io.delimRoom = 0 := by
            simp only [newline, List.length_singleton] at hlt
            omega
          refine ⟨.writeDelimiter, b.length, ?_, ?_, ?_, ?_⟩
          · simp [newline]
          · rw [he, e1, hz]
            simp
          · intro h
            cases h
          · intro _
            rfl
        | true =>
          left
          have e2 := fileWrite_ok _ _ _ h2
          rw [e2, e1]
          simp

/-- Witness for the amended C7: a record encoded as `{}` appended to `[1]` with
both writes complete, and the same call with marshalling failing. -/
theorem appendJsonToFile_append_only_witness :
    appendJsonToFile (fun _ : Universitas => some [123, 125]) {}
        { openOk := true, recordRoom := 2, delimRoom := 1 } [1] = (none, [1, 123, 125, 10]) ∧
    appendJsonToFile (fun _ : Universitas => none) {}
        { openOk := true, recordRoom := 2, delimRoom := 1 } [1] = (some .marshal, [1]) :=
  ⟨by decide,
    (appendJsonToFile_append_only (fun _ : Universitas => none) {}
      { openOk := true, recordRoom := 2, delimRoom := 1 } [1]).2.1 rfl⟩

/-! ## Runs of the pipeline -/

theorem run_cons (cfg : Config) (a : Action) (sched : List Action) (s : Sys) :
    run cfg (a :: sched) s = run cfg sched (step cfg a s) := rfl

theorem run_append (cfg : Config) (l₁ l₂ : List Action) (s : Sys) :
    run cfg (l₁ ++ l₂) s = run cfg l₂ (run cfg l₁ s) := by
  simp [run, List.foldl_append]

/-- A property that holds at the start and is kept by every step holds after
every schedule. -/
theorem run_invariant (cfg : Config) (P : Sys → Prop)
    (hstep : ∀ s a, P s → P (step cfg a s)) (sched : List Action) (s : Sys) (h : P s) :
    P (run cfg sched s) := by
  induction sched generalizing s with
  | nil => exact h
  | cons a sched ih => exact ih _ (hstep s a h)

theorem step_exited (cfg : Config) (a : Action) (s : Sys) (h : s.exited = true) :
    step cfg a s = s := by
  simp [step, h]

theorem step_producer (cfg : Config) (serve : Nat) (s : Sys) (h : s.exited = false) :
    step cfg (.producer serve) s = producerStep cfg serve s := by
  simp [step, h]

theorem step_main (cfg : Config) (s : Sys) (h : s.exited = false) :
    step cfg .main s = mainStep cfg s := by
  simp [step, h]

theorem step_worker (cfg : Config) (i : Nat) (env : WorkerEnv) (s : Sys) (pc : WorkerPc)
    (hx : s.exited = false) (hi : s.workers[i]? = some pc) :
    step cfg (.worker i env) s =
      { (workerStep cfg env pc s).2 with
        workers := (workerStep cfg env pc s).2.workers.set i (workerStep cfg env pc s).1 } := by
  simp [step, hx, hi]

theorem getElem?_set_some {α : Type} (l : List α) (i : Nat) (a b : α) (h : l[i]? = some a) :
    (l.set i b)[i]? = some b := by
  obtain ⟨hlt, _⟩ := List.getElem?_eq_some.mp h
  exact List.getElem?_set_self hlt

/-- A worker step touches neither the producer, nor its trace, nor `main`, nor
the `closed` flag of the channel when the channel is open. -/
theorem workerStep_frame (cfg : Config) (env : WorkerEnv) (pc : WorkerPc) (s : Sys) :
    (workerStep cfg env pc s).2.producer = s.producer ∧
      (workerStep cfg env pc s).2.trace = s.trace ∧
      (workerStep cfg env pc s).2.main = s.main ∧
      (workerStep cfg env pc s).2.closed = s.closed ∧
      (workerStep cfg env pc s).2.workers = s.workers := by
  cases pc <;> simp only [workerStep] <;> (repeat' split) <;> simp

theorem step_worker_frame (cfg : Config) (i : Nat) (env : WorkerEnv) (s : Sys) :
    (step cfg (.worker i env) s).producer = s.producer ∧
      (step cfg (.worker i env) s).trace = s.trace ∧
      (step cfg (.worker i env) s).main = s.main ∧
      (step cfg (.worker i env) s).closed = s.closed := by
  unfold step
  split
  · simp
  · simp only
    split
    · simp
    · obtain ⟨h1, h2, h3, h4, _⟩ := workerStep_frame cfg env ‹_› s
      exact ⟨h1, h2, h3, h4⟩

theorem itemSource_cons (item : DiktiFinalResult) (rest : List DiktiFinalResult) :
    itemSource (item :: rest) =
      if trimSpace item.Website = "" then itemSource rest
      else toUniversitas item :: itemSource rest := by
  by_cases h : trimSpace item.Website = "" <;> simp [itemSource, List.filter_cons, h, toUniversitas]

theorem offered_snoc (t : List Event) (e : Event) :
    offered (t ++ [e]) = offered t ++ offered [e] := by
  simp [offered, List.filterMap_append]

theorem enqueued_snoc (t : List Event) (e : Event) :
    enqueued (t ++ [e]) = enqueued t ++ enqueued [e] := by
  simp [enqueued, List.filterMap_append]

theorem firstParked_some (ws : List WorkerPc) (k : Nat) (h : firstParked ws = some k) :
    ws[k]? = some .parked := by
  induction ws generalizing k with
  | nil => simp [firstParked] at h
  | cons pc ws ih =>
    by_cases hp : pc = .parked
    · simp only [firstParked, hp, if_true, Option.some.injEq] at h
      subst h
      simp [hp]
    · simp only [firstParked, hp, if_false, Option.map_eq_some'] at h
      obtain ⟨j, hj, rfl⟩ := h
      simpa using ih j hj

theorem firstParked_none (ws : List WorkerPc) (h : firstParked ws = none) :
    WorkerPc.parked ∉ ws := by
  induction ws with
  | nil => simp
  | cons pc ws ih =>
    by_cases hp : pc = .parked
    · simp [firstParked, hp] at h
    · simp only [firstParked, hp, if_false, Option.map_eq_none'] at h
      simp only [List.mem_cons, not_or]
      exact ⟨fun e => hp e.symm, ih h⟩

theorem receiver_some (ws : List WorkerPc) (serve k : Nat) (h : receiver ws serve = some k) :
    ws[k]? = some .parked := by
  unfold receiver at h
  split at h
  · simp only [Option.some.injEq] at h
    subst h
    assumption
  · exact firstParked_some ws k h

theorem receiver_none (ws : List WorkerPc) (serve : Nat) (h : receiver ws serve = none) :
    WorkerPc.parked ∉ ws := by
  unfold receiver at h
  split at h
  · cases h
  · exact firstParked_none ws h

/-- The three outcomes of the non-blocking send: handed to a blocked receiver,
queued, or not taken. -/
theorem trySend_cases (cap : Nat) (s : Sys) (serve : Nat) (u : Universitas) :
    (∃ k, s.workers[k]? = some .parked ∧
        trySend cap s serve u = some { s with workers := s.workers.set k (.scraping u) }) ∨
      (WorkerPc.parked ∉ s.workers ∧ s.queue.length < cap ∧
        trySend cap s serve u = some { s with queue := s.queue ++ [u] }) ∨
      (WorkerPc.parked ∉ s.workers ∧ ¬ s.queue.length < cap ∧ trySend cap s serve u = none) := by
  cases hr : receiver s.workers serve with
  | some k =>
    left
    exact ⟨k, receiver_some _ _ _ hr, by simp [trySend, hr]⟩
  | none =>
    right
    by_cases hq : s.queue.length < cap
    · left
      exact ⟨receiver_none _ _ hr, hq, by simp [trySend, hr, hq]⟩
    · right
      exact ⟨receiver_none _ _ hr, hq, by simp [trySend, hr, hq]⟩

/-- The shape of a producer step: besides the producer's place and trace it
changes nothing, or it queues one item on a channel with room and no blocked
receiver, or it hands one item to a blocked receiver. -/
theorem producerStep_shape (cfg : Config) (serve : Nat) (s : Sys) :
    ∃ p tr,
      (producerStep cfg serve s = { s with producer := p, trace := tr } ∧
        enqueued tr = enqueued s.trace) ∨
      (∃ u, WorkerPc.parked ∉ s.workers ∧ s.queue.length < cfg.cap ∧
        producerStep cfg serve s
          = { s with queue := s.queue ++ [u], producer := p, trace := tr } ∧
        enqueued tr = enqueued s.trace ++ [u]) ∨
      (∃ u k, s.workers[k]? = some .parked ∧
        producerStep cfg serve s
          = { s with workers := s.workers.set k (.scraping u), producer := p, trace := tr } ∧
        enqueued tr = enqueued s.trace ++ [u]) := by
  rcases hp : s.producer with _ | rest | ⟨buffer, rest⟩ | _
  · have e : producerStep cfg serve s = s := by simp [producerStep, hp]
    exact ⟨s.producer, s.trace, Or.inl ⟨e, rfl⟩⟩
  · cases rest with
    | nil => exact ⟨.returned, s.trace, Or.inl ⟨by simp [producerStep, hp], rfl⟩⟩
    | cons item rest =>
      by_cases ht : trimSpace item.Website = ""
      · exact ⟨.loop rest, s.trace ++ [.skipped (toUniversitas item)],
          Or.inl ⟨by simp [producerStep, hp, ht], by simp [enqueued_snoc, enqueued]⟩⟩
      · rcases trySend_cases cfg.cap s serve (toUniversitas item) with
          ⟨k, hk, hs⟩ | ⟨hn, hq, hs⟩ | ⟨hn, hq, hs⟩
        · exact ⟨.loop rest, s.trace ++ [.sent (toUniversitas item)],
            Or.inr (Or.inr ⟨toUniversitas item, k, hk, by simp [producerStep, hp, ht, hs],
              by simp [enqueued_snoc, enqueued]⟩)⟩
        · exact ⟨.loop rest, s.trace ++ [.sent (toUniversitas item)],
            Or.inr (Or.inl ⟨toUniversitas item, hn, hq, by simp [producerStep, hp, ht, hs],
              by simp [enqueued_snoc, enqueued]⟩)⟩
        · exact ⟨.retry [toUniversitas item] rest, s.trace ++ [.full (toUniversitas item)],
            Or.inl ⟨by simp [producerStep, hp, ht, hs], by simp [enqueued_snoc, enqueued]⟩⟩
  · cases buffer with
    | nil => exact ⟨.loop rest, s.trace, Or.inl ⟨by simp [producerStep, hp], rfl⟩⟩
    | cons u buffer =>
      rcases trySend_cases cfg.cap s serve u with ⟨k, hk, hs⟩ | ⟨hn, hq, hs⟩ | ⟨hn, hq, hs⟩
      · exact ⟨.retry buffer rest, s.trace ++ [.resent u],
          Or.inr (Or.inr ⟨u, k, hk, by simp [producerStep, hp, hs],
            by simp [enqueued_snoc, enqueued]⟩)⟩
      · exact ⟨.retry buffer rest, s.trace ++ [.resent u],
          Or.inr (Or.inl ⟨u, hn, hq, by simp [producerStep, hp, hs],
            by simp [enqueued_snoc, enqueued]⟩)⟩
      · exact ⟨.retry (u :: buffer) rest, s.trace ++ [.stillFull],
          Or.inl ⟨by simp [producerStep, hp, hs], by simp [enqueued_snoc, enqueued]⟩⟩
  · have e : producerStep cfg serve s = s := by simp [producerStep, hp]
    exact ⟨s.producer, s.trace, Or.inl ⟨e, rfl⟩⟩

/-- A producer step leaves the channel's `closed` flag, the wait group, `main`,
the sink and the process alone; it starts no worker, and the only place of a
worker it changes is that of a blocked receiver, which goes on with an item. -/
theorem producerStep_frame (cfg : Config) (serve : Nat) (s : Sys) :
    (producerStep cfg serve s).closed = s.closed ∧
      (producerStep cfg serve s).wg = s.wg ∧ (producerStep cfg serve s).main = s.main ∧
      (producerStep cfg serve s).sink = s.sink ∧
      (producerStep cfg serve s).exited = s.exited ∧
      (producerStep cfg serve s).workers.length = s.workers.length ∧
      (∀ pc ∈ (producerStep cfg serve s).workers, pc ∈ s.workers ∨ ∃ u, pc = .scraping u) ∧
      (∀ (i : Nat) (pc : WorkerPc), s.workers[i]? = some pc → pc ≠ .parked →
        (producerStep cfg serve s).workers[i]? = some pc) := by
  obtain ⟨p, tr, ⟨e, _⟩ | ⟨u, _, _, e, _⟩ | ⟨u, k, hk, e, _⟩⟩ := producerStep_shape cfg serve s
  · rw [e]
    exact ⟨rfl, rfl, rfl, rfl, rfl, rfl, fun pc h => Or.inl h, fun i pc h _ => h⟩
  · rw [e]
    exact ⟨rfl, rfl, rfl, rfl, rfl, rfl, fun pc h => Or.inl h, fun i pc h _ => h⟩
  · rw [e]
    refine ⟨rfl, rfl, rfl, rfl, rfl, ?_, ?_, ?_⟩
    · show (s.workers.set k (.scraping u)).length = s.workers.length
      exact List.length_set ..
    · intro pc h
      rcases List.mem_or_eq_of_mem_set h with h1 | h1
      · exact Or.inl h1
      · exact Or.inr ⟨u, h1⟩
    · intro i pc h hne
      have hki : k ≠ i := by
        intro e'
        subst e'
        rw [hk] at h
        exact hne (Option.some.inj h).symm
      show (s.workers.set k (.scraping u))[i]? = some pc
      rw [List.getElem?_set_ne hki]
      exact h

theorem producerStep_main (cfg : Config) (serve : Nat) (s : Sys) :
    (producerStep cfg serve s).main = s.main :=
  (producerStep_frame cfg serve s).2.2.1

theorem mainStep_frame (cfg : Config) (s : Sys) :
    (mainStep cfg s).sink = s.sink ∧ (mainStep cfg s).queue = s.queue ∧
      (mainStep cfg s).trace = s.trace ∧
      ∃ more, (mainStep cfg s).workers = s.workers ++ more ∧ ∀ pc ∈ more, pc = .recv := by
  unfold mainStep
  split
  · exact ⟨rfl, rfl, rfl, [], by simp, by simp⟩
  · split
    · exact ⟨rfl, rfl, rfl, [.recv], rfl, by simp⟩
    · exact ⟨rfl, rfl, rfl, [], by simp, by simp⟩
  · split
    · exact ⟨rfl, rfl, rfl, [], by simp, by simp⟩
    · exact ⟨rfl, rfl, rfl, [], by simp, by simp⟩
  · exact ⟨rfl, rfl, rfl, [], by simp, by simp⟩

/-- The producer step in the retry loop with `u` at the front of the buffer: `u`
is handed to a blocked receiver, or queued on a channel with room, and leaves
the buffer; or the send is not taken and the producer stays where it is. -/
theorem producerStep_retry (cfg : Config) (serve : Nat) (s : Sys) (u : Universitas)
    (buffer : List Universitas) (rest : List DiktiFinalResult)
    (hp : s.producer = .retry (u :: buffer) rest) :
    (∃ k, s.workers[k]? = some .parked ∧
        producerStep cfg serve s
          = { s with workers := s.workers.set k (.scraping u), producer := .retry buffer rest,
                     trace := s.trace ++ [.resent u] }) ∨
      (WorkerPc.parked ∉ s.workers ∧ s.queue.length < cfg.cap ∧
        producerStep cfg serve s
          = { s with queue := s.queue ++ [u], producer := .retry buffer rest,
                     trace := s.trace ++ [.resent u] }) ∨
      (WorkerPc.parked ∉ s.workers ∧ ¬ s.queue.length < cfg.cap ∧
        producerStep cfg serve s = { s with trace := s.trace ++ [.stillFull] }) := by
  rcases trySend_cases cfg.cap s serve u with ⟨k, hk, hs⟩ | ⟨hn, hq, hs⟩ | ⟨hn, hq, hs⟩
  · exact Or.inl ⟨k, hk, by simp [producerStep, hp, hs]⟩
  · exact Or.inr (Or.inl ⟨hn, hq, by simp [producerStep, hp, hs]⟩)
  · exact Or.inr (Or.inr ⟨hn, hq, by simp [producerStep, hp, hs]⟩)

/-! ## The producer -/

theorem producerInv_init (cfg : Config) (sink : Bytes) : ProducerInv cfg (init sink) := by
  simp [ProducerInv, init, offered, enqueued, pendingRecords, overflowBuffer]

theorem producerInv_producerStep (cfg : Config) (serve : Nat) (s : Sys)
    (h : ProducerInv cfg s) : ProducerInv cfg (producerStep cfg serve s) := by
  obtain ⟨h0, h1, h2, h3⟩ := h
  have hm := producerStep_main cfg serve s
  unfold ProducerInv
  rw [hm]
  rcases hp : s.producer with _ | rest | ⟨buffer, rest⟩ | _
  · have e : producerStep cfg serve s = s := by simp [producerStep, hp]
    rw [e]
    exact ⟨h0, h1, h2, h3⟩
  · rw [hp] at h0 h1 h2 h3
    have hne : s.main ≠ .start := fun e => by simpa using h0 e
    cases rest with
    | nil =>
      simp only [pendingRecords, overflowBuffer] at h1 h2
      simp only [producerStep, hp, pendingRecords, overflowBuffer]
      exact ⟨fun e => absurd e hne, h1, h2, by simp⟩
    | cons item rest =>
      simp only [pendingRecords, overflowBuffer, itemSource_cons] at h1 h2
      by_cases ht : trimSpace item.Website = ""
      · simp only [ht, if_true] at h1 h2
        simp only [producerStep, hp, ht, if_true, pendingRecords, overflowBuffer]
        refine ⟨fun e => absurd e hne, ?_, ?_, by simp⟩
        · rw [← h1]
          simp [offered_snoc, offered]
        · rw [← h2]
          simp [enqueued_snoc, enqueued]
      · simp only [ht, if_false] at h1 h2
        cases hs : trySend cfg.cap s serve (toUniversitas item) with
        | some t =>
          simp only [producerStep, hp, ht, hs, if_false, pendingRecords, overflowBuffer]
          refine ⟨fun e => absurd e hne, ?_, ?_, by simp⟩
          · rw [← h1]
            simp [offered_snoc, offered]
          · rw [← h2]
            simp [enqueued_snoc, enqueued]
        | none =>
          simp only [producerStep, hp, ht, hs, if_false, pendingRecords, overflowBuffer]
          refine ⟨fun e => absurd e hne, ?_, ?_, by simp⟩
          · rw [← h1]
            simp [offered_snoc, offered]
          · rw [← h2]
            simp [enqueued_snoc, enqueued]
  · rw [hp] at h0 h1 h2 h3
    have hne : s.main ≠ .start := fun e => by simpa using h0 e
    simp only [pendingRecords, overflowBuffer] at h1 h2 h3
    cases buffer with
    | nil =>
      simp only [producerStep, hp, pendingRecords, overflowBuffer]
      exact ⟨fun e => absurd e hne, h1, h2, by simp⟩
    | cons u buffer =>
      have hb : buffer = [] := by
        simp only [List.length_cons] at h3
        exact List.length_eq_zero.mp (by omega)
      subst hb
      cases hs : trySend cfg.cap s serve u with
      | some t =>
        simp only [producerStep, hp, hs, pendingRecords, overflowBuffer]
        refine ⟨fun e => absurd e hne, ?_, ?_, by simp⟩
        · rw [← h1]
          simp [offered_snoc, offered]
        · rw [← h2]
          simp [enqueued_snoc, enqueued]
      | none =>
        simp only [producerStep, hp, hs, pendingRecords, overflowBuffer]
        refine ⟨fun e => absurd e hne, ?_, ?_, by simp⟩
        · rw [← h1]
          simp [offered_snoc, offered]
        · rw [← h2]
          simp [enqueued_snoc, enqueued]
  · have e : producerStep cfg serve s = s := by simp [producerStep, hp]
    rw [e, hp]
    rw [hp] at h0 h1 h2 h3
    exact ⟨h0, h1, h2, h3⟩

theorem producerInv_mainStep (cfg : Config) (s : Sys) (h : ProducerInv cfg s) :
    ProducerInv cfg (mainStep cfg s) := by
  obtain ⟨h0, h1, h2, h3⟩ := h
  unfold ProducerInv
  rcases hm : s.main with _ | w | _ | _
  · have hp := h0 hm
    rw [hp] at h1 h2 h3
    simp only [mainStep, hm, pendingRecords, overflowBuffer] at h1 h2 ⊢
    exact ⟨fun e => (by cases e), h1, h2, by simp⟩
  · by_cases hw : w ≤ cfg.nWorkers
    · simp only [mainStep, hm, hw, if_true]
      exact ⟨fun e => (by cases e), h1, h2, h3⟩
    · simp only [mainStep, hm, hw, if_false]
      exact ⟨fun e => (by cases e), h1, h2, h3⟩
  · by_cases hw : s.wg = 0
    · simp only [mainStep, hm, hw, if_true]
      exact ⟨fun e => (by cases e), h1, h2, h3⟩
    · simp only [mainStep, hm, hw, if_false]
      exact ⟨fun e => (by cases e), h1, h2, h3⟩
  · simp only [mainStep, hm]
    exact ⟨fun e => (by cases e), h1, h2, h3⟩

theorem producerInv_step (cfg : Config) (s : Sys) (a : Action) (h : ProducerInv cfg s) :
    ProducerInv cfg (step cfg a s) := by
  cases a with
  | main =>
    unfold step
    split
    · exact h
    · exact producerInv_mainStep cfg s h
  | producer serve =>
    unfold step
    split
    · exact h
    · exact producerInv_producerStep cfg serve s h
  | worker i env =>
    obtain ⟨e1, e2, e3, _⟩ := step_worker_frame cfg i env s
    unfold ProducerInv
    rw [e1, e2, e3]
    exact h

theorem producerInv_run (cfg : Config) (sched : List Action) (sink : Bytes) :
    ProducerInv cfg (run cfg sched (init sink)) :=
  run_invariant cfg (ProducerInv cfg) (fun s a => producerInv_step cfg s a) sched _
    (producerInv_init cfg sink)

/-- A worker step takes at most the front item from the channel, and a worker
becomes blocked only on an empty channel. -/
theorem workerStep_queue (cfg : Config) (env : WorkerEnv) (pc : WorkerPc) (s : Sys) :
    (workerStep cfg env pc s).2.queue <:+ s.queue ∧
      ((workerStep cfg env pc s).1 = .parked → pc = .parked ∨ s.queue = []) := by
  cases pc with
  | recv =>
    cases hq : s.queue with
    | nil =>
      by_cases hc : s.closed = true
      · simp [workerStep, hq, hc]
      · simp [workerStep, hq, hc]
    | cons j q =>
      simp only [workerStep, hq]
      exact ⟨List.suffix_cons _ _, fun h => by cases h⟩
  | parked =>
    by_cases hc : s.closed = true
    · simp [workerStep, hc]
    · simp [workerStep, hc]
  | scraping univ =>
    simp only [workerStep]
    repeat' split
    all_goals exact ⟨List.suffix_refl _, fun h => by cases h⟩
  | opening b =>
    simp only [workerStep]
    split <;> exact ⟨List.suffix_refl _, fun h => by cases h⟩
  | writingRecord b =>
    simp only [workerStep]
    split <;> exact ⟨List.suffix_refl _, fun h => by cases h⟩
  | writingDelim => exact ⟨List.suffix_refl _, fun h => by cases h⟩
  | done => exact ⟨List.suffix_refl _, fun h => by cases h⟩

theorem queueInv_step (cfg : Config) (s : Sys) (a : Action) (h : QueueInv cfg s) :
    QueueInv cfg (step cfg a s) := by
  by_cases hx : s.exited = true
  · rw [step_exited cfg a s hx]
    exact h
  have hx : s.exited = false := by simpa using hx
  obtain ⟨h1, h2, h3⟩ := h
  cases a with
  | main =>
    rw [step_main cfg s hx]
    obtain ⟨_, e1, e2, more, e3, hmore⟩ := mainStep_frame cfg s
    unfold QueueInv
    rw [e1, e2, e3]
    refine ⟨h1, h2, fun hp => h3 ?_⟩
    rcases List.mem_append.mp hp with hp | hp
    · exact hp
    · cases hmore _ hp
  | producer serve =>
    rw [step_producer cfg serve s hx]
    unfold QueueInv
    obtain ⟨p, tr, ⟨e, et⟩ | ⟨u, hn, hq, e, et⟩ | ⟨u, k, hk, e, et⟩⟩ :=
      producerStep_shape cfg serve s
    · rw [e]
      exact ⟨by rw [et]; exact h1, h2, h3⟩
    · rw [e]
      refine ⟨?_, ?_, fun hp => absurd hp hn⟩
      · show s.queue ++ [u] <:+ enqueued tr
        rw [et]
        obtain ⟨t, ht⟩ := h1
        exact ⟨t, by rw [← ht, List.append_assoc]⟩
      · show (s.queue ++ [u]).length ≤ cfg.cap
        simp only [List.length_append, List.length_singleton]
        omega
    · have hempty : s.queue = [] := h3 (List.getElem?_mem hk)
      rw [e]
      refine ⟨?_, h2, fun _ => hempty⟩
      show s.queue <:+ enqueued tr
      rw [hempty]
      exact List.nil_suffix
  | worker i env =>
    cases hi : s.workers[i]? with
    | none =>
      have e : step cfg (.worker i env) s = s := by simp [step, hi]
      rw [e]
      exact ⟨h1, h2, h3⟩
    | some pc =>
      rw [step_worker cfg i env s pc hx hi]
      obtain ⟨hq, hpark⟩ := workerStep_queue cfg env pc s
      obtain ⟨_, ht, _, _, hw⟩ := workerStep_frame cfg env pc s
      unfold QueueInv
      simp only [ht, hw]
      refine ⟨hq.trans h1, (List.IsSuffix.length_le hq).trans h2, fun hp => ?_⟩
      have hs : s.queue = [] := by
        rcases List.mem_or_eq_of_mem_set hp with h4 | h4
        · exact h3 h4
        · rcases hpark h4.symm with h5 | h5
          · exact h3 (h5 ▸ List.getElem?_mem hi)
          · exact h5
      rw [hs] at hq
      exact List.eq_nil_of_suffix_nil hq

theorem queueInv_run (cfg : Config) (sched : List Action) (sink : Bytes) :
    QueueInv cfg (run cfg sched (init sink)) :=
  run_invariant cfg (QueueInv cfg) (fun s a => queueInv_step cfg s a) sched _
    (by simp [QueueInv, init, enqueued])

/-- Between two rounds of `eagerSchedule` the process runs, the channel is open
and empty, the producer is at the head of its loop, and the only worker is at
its receive, blocked or not; one round handles one record and restores that. -/
theorem eager_round (cfg : Config) (s : Sys) (item : DiktiFinalResult)
    (rest : List DiktiFinalResult) (hx : s.exited = false) (hc : s.closed = false)
    (hp : s.producer = .loop (item :: rest)) (hq : s.queue = [])
    (hw : s.workers = [.recv] ∨ s.workers = [.parked]) :
    ∃ t, run cfg [.worker 0 { httpGet := fun _ => .transportError }, .producer 0,
        .worker 0 { httpGet := fun _ => .transportError }] s = t ∧
      t.exited = false ∧ t.closed = false ∧ t.producer = .loop rest ∧ t.queue = [] ∧
      (t.workers = [.recv] ∨ t.workers = [.parked]) := by
  refine ⟨_, rfl, ?_⟩
  have e1 : step cfg (.worker 0 { httpGet := fun _ => .transportError }) s
      = { s with workers := [.parked] } := by
    rcases hw with hw | hw <;> simp [step, hx, hw, workerStep, hq, hc]
  rw [run_cons, e1, run_cons, step_producer cfg 0 { s with workers := [.parked] } hx]
  by_cases ht : trimSpace item.Website = ""
  · have e2 : producerStep cfg 0 { s with workers := [.parked] }
        = { s with workers := [.parked], producer := .loop rest,
                   trace := s.trace ++ [.skipped (toUniversitas item)] } := by
      simp [producerStep, hp, ht]
    rw [e2, run_cons]
    have e3 : step cfg (.worker 0 { httpGet := fun _ => .transportError })
        { s with workers := [.parked], producer := .loop rest,
                 trace := s.trace ++ [.skipped (toUniversitas item)] }
        = { s with workers := [.parked], producer := .loop rest,
                   trace := s.trace ++ [.skipped (toUniversitas item)] } := by
      simp [step, hx, workerStep, hc]
    rw [e3]
    exact ⟨hx, hc, rfl, hq, Or.inr rfl⟩
  · have e2 : producerStep cfg 0 { s with workers := [.parked] }
        = { s with workers := [.scraping (toUniversitas item)], producer := .loop rest,
                   trace := s.trace ++ [.sent (toUniversitas item)] } := by
      simp [producerStep, hp, ht, trySend, receiver]
    rw [e2, run_cons]
    have e3 : step cfg (.worker 0 { httpGet := fun _ => .transportError })
        { s with workers := [.scraping (toUniversitas item)], producer := .loop rest,
                 trace := s.trace ++ [.sent (toUniversitas item)] }
        = { s with workers := [.recv], producer := .loop rest,
                   trace := s.trace ++ [.sent (toUniversitas item)] } := by
      simp [step, hx, workerStep]
    rw [e3]
    exact ⟨hx, hc, rfl, hq, Or.inl rfl⟩

theorem eager_rounds (cfg : Config) (rest : List DiktiFinalResult)
    (s : Sys) (hx : s.exited = false) (hc : s.closed = false) (hp : s.producer = .loop rest)
    (hq : s.queue = []) (hw : s.workers = [.recv] ∨ s.workers = [.parked]) :
    (run cfg
        ((rest.flatMap fun _ =>
          [.worker 0 { httpGet := fun _ => .transportError }, .producer 0,
            .worker 0 { httpGet := fun _ => .transportError }]) ++ [.producer 0]) s).producer
      = .returned := by
  induction rest generalizing s with
  | nil =>
    show (step cfg (.producer 0) s).producer = .returned
    rw [step_producer cfg 0 s hx]
    simp [producerStep, hp]
  | cons item rest ih =>
    rw [List.flatMap_cons, List.append_assoc, run_append]
    obtain ⟨t, e, h1, h2, h3, h4, h5⟩ := eager_round cfg s item rest hx hc hp hq hw
    rw [e]
    exact ih t h1 h2 h3 h4 h5

/-- The producer can return: with at least one worker, whatever the capacity of
the channel, on `eagerSchedule` the producer has returned, for every input. -/
theorem crawlWebs_can_return (cfg : Config) (hw : 0 < cfg.nWorkers) (sink : Bytes) :
    (run cfg (eagerSchedule cfg.items) (init sink)).producer = .returned := by
  unfold eagerSchedule
  rw [List.append_assoc, run_append]
  have hle : 1 ≤ cfg.nWorkers := hw
  have e : run cfg [.main, .main] (init sink) =
      { init sink with producer := .loop cfg.items, main := .spawning 2, wg := 1,
                       workers := [.recv] } := by
    simp [run, step, init, mainStep, hle]
  rw [e]
  exact eager_rounds cfg cfg.items _ rfl rfl rfl rfl (Or.inl rfl)

/-- C1: at every moment of every run, the items `crawlWebs` has offered to the
channel, followed by the item source of the records it has not read yet, are
the records with a non-blank `Website`, one item each, with `Website`, `Nama`
and `Kode` taken from `Website`, `NmLemb` and `Npsn` and no icon; once
`crawlWebs` has returned, the offered items are exactly these; and with at
least one worker there is a schedule on which `crawlWebs` returns. -/
theorem crawlWebs_offers_item_source (cfg : Config) (sched : List Action) (sink : Bytes) :
    offered (run cfg sched (init sink)).trace ++
        itemSource (pendingRecords cfg (run cfg sched (init sink)).producer)
      = (cfg.items.filter fun r => trimSpace r.Website ≠ "").map
          (fun r => { Website := r.Website, Nama := r.NmLemb, Kode := r.Npsn, IconURL := [] }) ∧
    ((run cfg sched (init sink)).producer = .returned →
      offered (run cfg sched (init sink)).trace
        = (cfg.items.filter fun r => trimSpace r.Website ≠ "").map
            (fun r => { Website := r.Website, Nama := r.NmLemb, Kode := r.Npsn, IconURL := [] })) ∧
    (0 < cfg.nWorkers → ∃ sched', (run cfg sched' (init sink)).producer = .returned) := by
  have h := (producerInv_run cfg sched sink).2.1
  refine ⟨h, fun hr => ?_, fun hw => ⟨_, crawlWebs_can_return cfg hw sink⟩⟩
  rw [hr] at h
  simpa [pendingRecords, itemSource] using h

/-- Witness for C1, the scenario of the specification: the addresses
`example.org`, empty, `http://foo.test` on a channel of capacity 1; the producer
returns having offered two items, the first and the third. -/
theorem crawlWebs_offers_item_source_witness :
    (run demoConfig drainSchedule (init [])).producer = .returned ∧
      offered (run demoConfig drainSchedule (init [])).trace = [itemA, itemC] ∧
      (offered (run demoConfig drainSchedule (init [])).trace).length = 2 :=
  ⟨by decide,
    ((crawlWebs_offers_item_source demoConfig drainSchedule []).2.1 (by decide)).trans
      (by decide),
    by decide⟩

/-- C2: at every moment of every run, the items `crawlWebs` has placed on the
channel are a prefix of the item source, in source order; followed by the
overflow buffer and the item source of the unread records they are the whole
item source; the channel holds the most recently placed ones, in the same
order, and never more than its capacity; once `crawlWebs` has returned the
placed items are the whole item source; and with at least one worker there is a
schedule on which it returns, whatever the capacity. -/
theorem crawlWebs_enqueues_in_source_order (cfg : Config) (sched : List Action)
    (sink : Bytes) :
    enqueued (run cfg sched (init sink)).trace <+: itemSource cfg.items ∧
    enqueued (run cfg sched (init sink)).trace ++
        overflowBuffer (run cfg sched (init sink)).producer ++
        itemSource (pendingRecords cfg (run cfg sched (init sink)).producer)
      = itemSource cfg.items ∧
    (run cfg sched (init sink)).queue <:+ enqueued (run cfg sched (init sink)).trace ∧
    (run cfg sched (init sink)).queue.length ≤ cfg.cap ∧
    ((run cfg sched (init sink)).producer = .returned →
      enqueued (run cfg sched (init sink)).trace = itemSource cfg.items) ∧
    (0 < cfg.nWorkers → ∃ sched', (run cfg sched' (init sink)).producer = .returned) := by
  have h := (producerInv_run cfg sched sink).2.2.1
  have hq := queueInv_run cfg sched sink
  refine ⟨⟨_, by rw [← List.append_assoc]; exact h⟩, h, hq.1, hq.2.1, fun hr => ?_,
    fun hw => ⟨_, crawlWebs_can_return cfg hw sink⟩⟩
  rw [hr] at h
  simpa [pendingRecords, overflowBuffer, itemSource] using h

/-- Witness for C2: on `drainSchedule` the third item overflows, is retried and
is placed after the first; the producer returns with both placed in source
order. -/
theorem crawlWebs_enqueues_in_source_order_witness :
    (run demoConfig drainSchedule (init [])).producer = .returned ∧
      enqueued (run demoConfig drainSchedule (init [])).trace = [itemA, itemC] :=
  ⟨by decide,
    ((crawlWebs_enqueues_in_source_order demoConfig drainSchedule []).2.2.2.2.1
      (by decide)).trans (by decide)⟩

/-- C9: for every input, every capacity of the channel (zero included) and every
reachable state, the overflow buffer holds at most one item; and when it is
non-empty, with front `u`, any step of any goroutine either leaves the producer
where it is, or is the producer step whose send of `u` is taken, which removes
`u` from the buffer: `u` is put at the back of the channel, which had room, or
it is handed to a receiver blocked on the channel, which goes on with `u`; in
both cases the producer has read no further record. -/
theorem overflow_buffer_discipline (cfg : Config) (sched : List Action) (sink : Bytes)
    (a : Action) :
    (overflowBuffer (run cfg sched (init sink)).producer).length ≤ 1 ∧
    ∀ u buffer rest, (run cfg sched (init sink)).producer = .retry (u :: buffer) rest →
      pendingRecords cfg (step cfg a (run cfg sched (init sink))).producer = rest ∧
      ((step cfg a (run cfg sched (init sink))).producer = .retry (u :: buffer) rest ∨
        ((step cfg a (run cfg sched (init sink))).producer = .retry buffer rest ∧
          (step cfg a (run cfg sched (init sink))).trace
            = (run cfg sched (init sink)).trace ++ [.resent u] ∧
          (((run cfg sched (init sink)).queue.length < cfg.cap ∧
              (step cfg a (run cfg sched (init sink))).queue
                = (run cfg sched (init sink)).queue ++ [u] ∧
              (step cfg a (run cfg sched (init sink))).workers
                = (run cfg sched (init sink)).workers) ∨
            (∃ k, (run cfg sched (init sink)).workers[k]? = some .parked ∧
              (step cfg a (run cfg sched (init sink))).workers
                = (run cfg sched (init sink)).workers.set k (.scraping u) ∧
              (step cfg a (run cfg sched (init sink))).queue
                = (run cfg sched (init sink)).queue)))) := by
  have hinv := producerInv_run cfg sched sink
  generalize run cfg sched (init sink) = s at hinv ⊢
  obtain ⟨h0, _, _, h3⟩ := hinv
  refine ⟨h3, fun u buffer rest hp => ?_⟩
  have hne : s.main ≠ .start := fun e => by simpa [hp] using h0 e
  cases a with
  | worker i env =>
    obtain ⟨e1, _, _, _⟩ := step_worker_frame cfg i env s
    rw [e1, hp]
    exact ⟨rfl, Or.inl rfl⟩
  | main =>
    have e : (step cfg .main s).producer = s.producer := by
      unfold step mainStep
      split
      · rfl
      · dsimp only
        split
        · exact absurd ‹s.main = .start› hne
        · split <;> rfl
        · split <;> rfl
        · rfl
    rw [e, hp]
    exact ⟨rfl, Or.inl rfl⟩
  | producer serve =>
    by_cases hx : s.exited = true
    · rw [step_exited cfg _ s hx, hp]
      exact ⟨rfl, Or.inl rfl⟩
    · rw [step_producer cfg serve s (by simpa using hx)]
      rcases producerStep_retry cfg serve s u buffer rest hp with
        ⟨k, hk, e⟩ | ⟨_, hq, e⟩ | ⟨_, _, e⟩
      · rw [e]
        exact ⟨rfl, Or.inr ⟨rfl, rfl, Or.inr ⟨k, hk, rfl, rfl⟩⟩⟩
      · rw [e]
        exact ⟨rfl, Or.inr ⟨rfl, rfl, Or.inl ⟨hq, rfl, rfl⟩⟩⟩
      · rw [e]
        exact ⟨by rw [hp]; rfl, Or.inl hp⟩

/-- Witness for C9, on a channel of capacity 1 and on one of capacity 0.  On
`retrySchedule` the buffer holds the third item and the channel has room: the
producer's next step queues it.  On `handoffSchedule` the channel has no buffer
and worker 0 is blocked in its receive: the producer's next step hands the item
to worker 0.  Neither step reads a record. -/
theorem overflow_buffer_discipline_witness :
    ((run demoConfig retrySchedule (init [])).producer = .retry [itemC] [] ∧
      pendingRecords demoConfig
        (step demoConfig (.producer 0) (run demoConfig retrySchedule (init []))).producer = [] ∧
      (step demoConfig (.producer 0) (run demoConfig retrySchedule (init []))).queue
        = [itemC]) ∧
    ((run unbufferedConfig handoffSchedule (init [])).producer = .retry [itemC] [] ∧
      (run unbufferedConfig handoffSchedule (init [])).workers = [.parked] ∧
      pendingRecords unbufferedConfig
        (step unbufferedConfig (.producer 0)
          (run unbufferedConfig handoffSchedule (init []))).producer = [] ∧
      (step unbufferedConfig (.producer 0)
          (run unbufferedConfig handoffSchedule (init []))).producer = .retry [] [] ∧
      (step unbufferedConfig (.producer 0)
          (run unbufferedConfig handoffSchedule (init []))).workers = [.scraping itemC] ∧
      (step unbufferedConfig (.producer 0)
          (run unbufferedConfig handoffSchedule (init []))).queue = []) :=
  ⟨⟨by decide,
      ((overflow_buffer_discipline demoConfig retrySchedule [] (.producer 0)).2 itemC [] []
        (by decide)).1,
      by decide⟩,
    ⟨by decide, by decide,
      ((overflow_buffer_discipline unbufferedConfig handoffSchedule [] (.producer 0)).2
        itemC [] [] (by decide)).1,
      by decide, by decide, by decide⟩⟩

/-! ## The lifecycle: `main` and its wait on the workers -/

theorem workerStep_open (cfg : Config) (env : WorkerEnv) (pc : WorkerPc) (s : Sys)
    (hc : s.closed = false) (hpc : pc ≠ .done) :
    (workerStep cfg env pc s).1 ≠ .done ∧ (workerStep cfg env pc s).2.wg = s.wg := by
  cases pc <;> simp only [workerStep, hc] <;> (repeat' split) <;> simp_all

theorem lifecycleInv_step (cfg : Config) (hw : 0 < cfg.nWorkers) (s : Sys) (a : Action)
    (h : LifecycleInv cfg s) : LifecycleInv cfg (step cfg a s) := by
  by_cases hx : s.exited = true
  · rw [step_exited cfg a s hx]
    exact h
  have hx : s.exited = false := by simpa using hx
  obtain ⟨hc, hd, hg, hm⟩ := h
  cases a with
  | producer serve =>
    rw [step_producer cfg serve s hx]
    obtain ⟨e1, e3, e4, _, _, elen, emem, _⟩ := producerStep_frame cfg serve s
    unfold LifecycleInv
    rw [e1, e3, e4, elen]
    refine ⟨hc, fun pc hpc => ?_, hg, hm⟩
    rcases emem pc hpc with h1 | ⟨u, h1⟩
    · exact hd pc h1
    · rw [h1]
      simp
  | main =>
    rw [step_main cfg s hx]
    unfold LifecycleInv
    rcases hmain : s.main with _ | w | _ | _
    · simp only [mainStep, hmain]
      rw [hmain] at hm
      refine ⟨hc, hd, hg, ?_⟩
      show 1 = s.workers.length + 1
      rw [hm]
    · rw [hmain] at hm
      by_cases hle : w ≤ cfg.nWorkers
      · simp only [mainStep, hmain, hle, if_true]
        refine ⟨hc, ?_, ?_, ?_⟩
        · intro pc hpc
          rcases List.mem_append.mp hpc with h1 | h1
          · exact hd pc h1
          · simp only [List.mem_singleton] at h1
            rw [h1]
            simp
        · simp [hg]
        · simp [hm]
      · simp only [mainStep, hmain, hle, if_false]
        refine ⟨hc, hd, hg, ?_⟩
        show cfg.nWorkers ≤ s.workers.length
        omega
    · rw [hmain] at hm
      have hne : s.wg ≠ 0 := by omega
      simp only [mainStep, hmain, hne, if_false]
      exact ⟨hc, hd, hg, hm⟩
    · rw [hmain] at hm
      exact hm.elim
  | worker i env =>
    unfold step
    simp only [hx, Bool.false_eq_true, if_false]
    cases hi : s.workers[i]? with
    | none => exact ⟨hc, hd, hg, hm⟩
    | some pc =>
      have hmem : pc ∈ s.workers := List.getElem?_mem hi
      obtain ⟨f1, f2, f3, f4, f5⟩ := workerStep_frame cfg env pc s
      obtain ⟨g1, g2⟩ := workerStep_open cfg env pc s hc (hd pc hmem)
      unfold LifecycleInv
      simp only [f3, f4, f5, g2, List.length_set]
      refine ⟨hc, ?_, hg, hm⟩
      intro pc1 h1
      rcases List.mem_or_eq_of_mem_set h1 with h2 | h2
      · exact hd pc1 h2
      · rw [h2]
        exact g1

theorem lifecycleInv_init (cfg : Config) (sink : Bytes) : LifecycleInv cfg (init sink) := by
  simp [LifecycleInv, init]

theorem lifecycleInv_run (cfg : Config) (hw : 0 < cfg.nWorkers) (sched : List Action)
    (sink : Bytes) : LifecycleInv cfg (run cfg sched (init sink)) :=
  run_invariant cfg (LifecycleInv cfg) (fun s a => lifecycleInv_step cfg hw s a) sched _
    (lifecycleInv_init cfg sink)

/-- C10: in the pipeline that `main` builds (a channel of capacity 100, ten
workers), for every input, every prior sink content and every schedule: the
channel is not closed and no further step closes it, no started worker has left
its loop, the wait group counter equals the number of started workers, and
`main` has not returned from `wg.Wait()`. -/
theorem main_wait_never_returns (items : List DiktiFinalResult)
    (marshal : Universitas → Option Bytes) (sched : List Action) (sink : Bytes) (a : Action) :
    (run (mainConfig items marshal) sched (init sink)).closed = false ∧
    (step (mainConfig items marshal) a (run (mainConfig items marshal) sched (init sink))).closed
      = false ∧
    (∀ pc ∈ (run (mainConfig items marshal) sched (init sink)).workers, pc ≠ .done) ∧
    (run (mainConfig items marshal) sched (init sink)).wg
      = (run (mainConfig items marshal) sched (init sink)).workers.length ∧
    (run (mainConfig items marshal) sched (init sink)).main ≠ .returned := by
  have hw : 0 < (mainConfig items marshal).nWorkers := by
    show 0 < 10
    omega
  have h := lifecycleInv_run (mainConfig items marshal) hw sched sink
  have h' := lifecycleInv_step (mainConfig items marshal) hw _ a h
  refine ⟨h.1, h'.1, h.2.1, h.2.2.1, fun hm => ?_⟩
  have h4 := h.2.2.2
  rw [hm] at h4
  exact h4

/-- Witness for C10: after twelve steps of `main` the ten workers are started
and `main` stands in `wg.Wait()` with the counter at ten; it has not returned. -/
theorem main_wait_never_returns_witness :
    (run (mainConfig demoItems demoMarshal) (List.replicate 12 .main) (init [])).main = .waiting ∧
      (run (mainConfig demoItems demoMarshal) (List.replicate 12 .main) (init [])).wg = 10 ∧
      (run (mainConfig demoItems demoMarshal) (List.replicate 12 .main) (init [])).main
        ≠ .returned :=
  ⟨by decide, by decide,
    (main_wait_never_returns demoItems demoMarshal (List.replicate 12 .main) []
      .main).2.2.2.2⟩

/-! ## Workers: `scrape` inside the pipeline -/

/-- The steps of a worker on one item, run without interruption, change the
sink as the call `scrape` does, and end the process exactly when `scrape` ends
in `log.Fatal`. -/
theorem scrapeSteps_refines_scrape (cfg : Config) (e₁ e₂ e₃ e₄ : WorkerEnv)
    (univ : Universitas) (wID : Nat) (s : Sys) (hx : s.exited = false) :
    (scrapeSteps cfg [e₁, e₂, e₃, e₄] (.scraping univ) s).2.sink
      = (scrape cfg.marshal e₁.httpGet
          { openOk := e₂.openOk, recordRoom := e₃.room, delimRoom := e₄.room }
          univ wID s.sink).2 ∧
    ((scrapeSteps cfg [e₁, e₂, e₃, e₄] (.scraping univ) s).2.exited = true ↔
      (scrape cfg.marshal e₁.httpGet
          { openOk := e₂.openOk, recordRoom := e₃.room, delimRoom := e₄.room }
          univ wID s.sink).1 = .fatal) := by
  cases hf : e₁.httpGet (normalize univ.Website) with
  | transportError => simp [scrapeSteps, workerStep, scrape, hf, hx]
  | parseError => simp [scrapeSteps, workerStep, scrape, hf, hx]
  | document doc =>
    cases hm : cfg.marshal (collectIcons doc { univ with Website := normalize univ.Website }) with
    | none => simp [scrapeSteps, workerStep, scrape, appendJsonToFile, hf, hx, hm]
    | some b =>
      cases ho : e₂.openOk with
      | false => simp [scrapeSteps, workerStep, scrape, appendJsonToFile, hf, hx, hm, ho]
      | true =>
        by_cases h1 : b.length ≤ e₃.room
        · by_cases h2 : newline.length ≤ e₄.room
          · simp [scrapeSteps, workerStep, scrape, appendJsonToFile, hf, hx, hm, ho, fileWrite,
              h1, h2]
          · simp [scrapeSteps, workerStep, scrape, appendJsonToFile, hf, hx, hm, ho, fileWrite,
              h1, h2]
        · simp [scrapeSteps, workerStep, scrape, appendJsonToFile, hf, hx, hm, ho, fileWrite, h1]

/-- C6: when the fetch of the item a worker holds fails with a transport error,
`scrape` returns with the sink unchanged, and in the pipeline that step changes
nothing but the worker's place, which is back at the receive: the sink, the
channel (nothing is put back) and the producer are as before, and the worker's
next step takes the item at the front of the channel.  A call of `scrape`
changes the sink only when the fetch yielded a document, and a worker reaches
`appendJsonToFile` only then. -/
theorem scrape_transport_error_abandons (cfg : Config) (s : Sys) (i : Nat) (env : WorkerEnv)
    (univ : Universitas) (io : FileIO) (wID : Nat)
    (hx : s.exited = false) (hi : s.workers[i]? = some (.scraping univ))
    (herr : env.httpGet (normalize univ.Website) = .transportError) :
    scrape cfg.marshal env.httpGet io univ wID s.sink = (.abandoned, s.sink) ∧
    step cfg (.worker i env) s = { s with workers := s.workers.set i .recv } ∧
    (∀ j q env', s.queue = j :: q →
      step cfg (.worker i env') (step cfg (.worker i env) s)
        = { s with queue := q, workers := s.workers.set i (.scraping j) }) ∧
    (∀ httpGet', (scrape cfg.marshal httpGet' io univ wID s.sink).2 ≠ s.sink →
      ∃ doc, httpGet' (normalize univ.Website) = .document doc) ∧
    (∀ env' b, (workerStep cfg env' (.scraping univ) s).1 = .opening b →
      ∃ doc, env'.httpGet (normalize univ.Website) = .document doc) := by
  have e1 : step cfg (.worker i env) s = { s with workers := s.workers.set i .recv } := by
    rw [step_worker cfg i env s _ hx hi]
    simp [workerStep, herr]
  refine ⟨by simp [scrape, herr], e1, ?_, ?_, ?_⟩
  · intro j q env' hq
    rw [e1, step_worker cfg i env' { s with workers := s.workers.set i .recv } .recv hx
      (getElem?_set_some _ _ _ _ hi)]
    simp [workerStep, hq, List.set_set]
  · intro httpGet' hne
    cases hf : httpGet' (normalize univ.Website) with
    | transportError => exact absurd (by simp [scrape, hf]) hne
    | parseError => exact absurd (by simp [scrape, hf]) hne
    | document doc => exact ⟨doc, rfl⟩
  · intro env' b hb
    cases hf : env'.httpGet (normalize univ.Website) with
    | transportError => simp [workerStep, hf] at hb
    | parseError => simp [workerStep, hf] at hb
    | document doc => exact ⟨doc, rfl⟩

/-- Witness for C6: on `holdSchedule` worker 0 holds the first item and the
third is on the channel; the fetch fails, the sink stays empty, and the worker's
next step takes the third item. -/
theorem scrape_transport_error_abandons_witness :
    (run demoConfig holdSchedule (init [])).workers[0]? = some (.scraping itemA) ∧
      (step demoConfig (.worker 0 offlineEnv)
        (run demoConfig holdSchedule (init []))).sink = [] ∧
      step demoConfig (.worker 0 offlineEnv)
          (step demoConfig (.worker 0 offlineEnv) (run demoConfig holdSchedule (init [])))
        = { run demoConfig holdSchedule (init []) with
            queue := [], workers := [.scraping itemC] } :=
  ⟨by decide, by decide,
    (scrape_transport_error_abandons demoConfig (run demoConfig holdSchedule (init [])) 0
      offlineEnv itemA { recordRoom := 0, delimRoom := 0 } 1 (by decide) (by decide)
      (by decide)).2.2.1 itemC [] offlineEnv (by decide)⟩

/-! ## The result sink under concurrent workers -/

theorem workerStep_sink (cfg : Config) (env : WorkerEnv) (pc : WorkerPc) (s : Sys) :
    s.sink <+: (workerStep cfg env pc s).2.sink := by
  cases pc <;> simp only [workerStep] <;> (repeat' split) <;>
    first
      | exact List.prefix_refl _
      | exact fileWrite_extends _ _ _

theorem step_sink_grows (cfg : Config) (a : Action) (s : Sys) :
    s.sink <+: (step cfg a s).sink := by
  by_cases hx : s.exited = true
  · rw [step_exited cfg a s hx]
  have hx : s.exited = false := by simpa using hx
  cases a with
  | main =>
    rw [step_main cfg s hx, (mainStep_frame cfg s).1]
  | producer serve =>
    rw [step_producer cfg serve s hx, (producerStep_frame cfg serve s).2.2.2.1]
  | worker i env =>
    cases hi : s.workers[i]? with
    | none => simp [step, hi]
    | some pc =>
      rw [step_worker cfg i env s pc hx hi]
      exact workerStep_sink cfg env pc s

theorem run_sink_grows (cfg : Config) (sched : List Action) (s : Sys) :
    s.sink <+: (run cfg sched s).sink := by
  induction sched generalizing s with
  | nil => exact List.prefix_refl _
  | cons a sched ih => exact (step_sink_grows cfg a s).trans (ih _)

/-- A step of another goroutine does not move a worker that is not blocked in
its receive. -/
theorem step_other_pc (cfg : Config) (i : Nat) (a : Action) (s : Sys) (pc : WorkerPc)
    (ha : notWorker i a = true) (hi : s.workers[i]? = some pc) (hpc : pc ≠ .parked) :
    (step cfg a s).workers[i]? = some pc := by
  by_cases hx : s.exited = true
  · rw [step_exited cfg a s hx]
    exact hi
  have hx : s.exited = false := by simpa using hx
  cases a with
  | main =>
    rw [step_main cfg s hx]
    obtain ⟨more, hm, _⟩ := (mainStep_frame cfg s).2.2.2
    obtain ⟨hlt, _⟩ := List.getElem?_eq_some.mp hi
    rw [hm, List.getElem?_append_left hlt]
    exact hi
  | producer serve =>
    rw [step_producer cfg serve s hx]
    exact (producerStep_frame cfg serve s).2.2.2.2.2.2.2 i pc hi hpc
  | worker j env =>
    have hji : j ≠ i := by simpa [notWorker] using ha
    cases hj : s.workers[j]? with
    | none => simpa [step, hj] using hi
    | some pcj =>
      rw [step_worker cfg j env s pcj hx hj]
      simp only [(workerStep_frame cfg env pcj s).2.2.2.2]
      rw [List.getElem?_set_ne hji]
      exact hi

theorem run_other_pc (cfg : Config) (i : Nat) (sched : List Action) (s : Sys) (pc : WorkerPc)
    (ha : ∀ a ∈ sched, notWorker i a = true) (hi : s.workers[i]? = some pc)
    (hpc : pc ≠ .parked) :
    (run cfg sched s).workers[i]? = some pc := by
  induction sched generalizing s with
  | nil => exact hi
  | cons a sched ih =>
    exact ih _ (fun b hb => ha b (List.mem_cons_of_mem _ hb))
      (step_other_pc cfg i a s pc (ha a (List.mem_cons_self _ _)) hi hpc)

/-- C8, refuted as stated: with two workers and the two non-blank demo records,
on `overlapSchedule` both calls of `appendJsonToFile` succeed and both workers
are back at the receive, yet the sink holds the two records on one line followed
by an empty line; it is not the two complete lines in either order. -/
theorem sink_lines_interleave :
    (run demoConfig overlapSchedule (init [])).sink = [123, 49, 125, 123, 51, 125, 10, 10] ∧
    (run demoConfig overlapSchedule (init [])).workers = [.recv, .recv] ∧
    (run demoConfig overlapSchedule (init [])).sink
      ≠ ([123, 49, 125] ++ newline) ++ ([123, 51, 125] ++ newline) ∧
    (run demoConfig overlapSchedule (init [])).sink
      ≠ ([123, 51, 125] ++ newline) ++ ([123, 49, 125] ++ newline) := by
  decide

/-- C8, amended: the calls are not serialised; each call appends with two
separate writes.  When worker `i` is about to write the record `b` and the write
is complete, `b` lands whole at the end of the sink.  Whatever the other
goroutines do before worker `i` writes its delimiter, they only append: the sink
is then the old content, `b`, and what the others appended, and the delimiter
goes after that; nothing written is altered by any later step.  The record is
immediately followed by its delimiter when no step comes between the two
writes. -/
theorem sink_record_then_delimiter (cfg : Config) (s : Sys) (i : Nat) (b : Bytes)
    (env₁ env₂ : WorkerEnv) (mid : List Action)
    (hx : s.exited = false) (hi : s.workers[i]? = some (.writingRecord b))
    (h₁ : b.length ≤ env₁.room) (h₂ : 1 ≤ env₂.room)
    (hmid : ∀ a ∈ mid, notWorker i a = true)
    (hx' : (run cfg mid (step cfg (.worker i env₁) s)).exited = false) :
    (step cfg (.worker i env₁) s).sink = s.sink ++ b ∧
    (run cfg [.worker i env₁, .worker i env₂] s).sink = s.sink ++ b ++ newline ∧
    ∃ others,
      (run cfg mid (step cfg (.worker i env₁) s)).sink = s.sink ++ b ++ others ∧
      (run cfg (.worker i env₁ :: (mid ++ [.worker i env₂])) s).sink
        = s.sink ++ b ++ others ++ newline ∧
      (run cfg (.worker i env₁ :: (mid ++ [.worker i env₂])) s).workers[i]? = some .recv ∧
      ∀ later, s.sink ++ b ++ others ++ newline
        <+: (run cfg later (run cfg (.worker i env₁ :: (mid ++ [.worker i env₂])) s)).sink := by
  have e1 : step cfg (.worker i env₁) s =
      { s with sink := s.sink ++ b, workers := s.workers.set i .writingDelim } := by
    rw [step_worker cfg i env₁ s _ hx hi]
    simp [workerStep, fileWrite, h₁, List.take_of_length_le h₁]
  have hpc1 : (step cfg (.worker i env₁) s).workers[i]? = some .writingDelim := by
    rw [e1]
    exact getElem?_set_some _ _ _ _ hi
  have hsink1 : (step cfg (.worker i env₁) s).sink = s.sink ++ b := by rw [e1]
  have delim : ∀ t : Sys, t.exited = false → t.workers[i]? = some .writingDelim →
      (step cfg (.worker i env₂) t).sink = t.sink ++ newline ∧
        (step cfg (.worker i env₂) t).workers[i]? = some .recv := by
    intro t ht hti
    rw [step_worker cfg i env₂ t _ ht hti]
    have hn : newline.length ≤ env₂.room := h₂
    exact ⟨by simp [workerStep, fileWrite, List.take_of_length_le hn],
      getElem?_set_some _ _ _ _ hti⟩
  refine ⟨hsink1, ?_, ?_⟩
  · have hx1 : (step cfg (.worker i env₁) s).exited = false := by rw [e1]; exact hx
    show (step cfg (.worker i env₂) (step cfg (.worker i env₁) s)).sink = _
    rw [(delim _ hx1 hpc1).1, hsink1]
  · obtain ⟨others, ho⟩ := run_sink_grows cfg mid (step cfg (.worker i env₁) s)
    rw [hsink1] at ho
    have hpc2 := run_other_pc cfg i mid _ _ hmid hpc1 (by simp)
    have hfin : run cfg (.worker i env₁ :: (mid ++ [.worker i env₂])) s
        = step cfg (.worker i env₂) (run cfg mid (step cfg (.worker i env₁) s)) := by
      rw [run_cons, run_append]
      rfl
    obtain ⟨d1, d2⟩ := delim _ hx' hpc2
    refine ⟨others, ho.symm, ?_, ?_, ?_⟩
    · rw [hfin, d1, ← ho]
    · rw [hfin]
      exact d2
    · intro later
      have := run_sink_grows cfg later (run cfg (.worker i env₁ :: (mid ++ [.worker i env₂])) s)
      rw [hfin, d1, ← ho] at this
      rw [hfin]
      exact this

/-- Witness for the amended C8: on `writerSchedule` worker 0 is about to write
its record; written back to back, record and delimiter form one complete
line. -/
theorem sink_record_then_delimiter_witness :
    (run demoConfig writerSchedule (init [])).workers[0]? = some (.writingRecord [123, 49, 125]) ∧
      (run demoConfig [.worker 0 demoEnv, .worker 0 demoEnv]
        (run demoConfig writerSchedule (init []))).sink = [123, 49, 125, 10] :=
  ⟨by decide,
    (sink_record_then_delimiter demoConfig (run demoConfig writerSchedule (init [])) 0
      [123, 49, 125] demoEnv demoEnv [.worker 1 demoEnv, .worker 1 demoEnv]
      (by decide) (by decide) (by decide) (by decide) (by simp [notWorker])
      (by decide)).2.1⟩

end Scraper
